import Mathlib

/-!
Shallow embedding of the core logic of `src/mod.ts` (npm_fetcher).

JavaScript strings are modelled as `String` / `List Char`; the JS string
primitives used by the source (`trim`, `split`, `startsWith`, `lastIndexOf`,
`parseInt`, `replaceAll`, anchored `replace`) are embedded as executable
functions on `List Char`.  Network, gzip, tar parsing, the SHA-1 primitive and
the filesystem are external collaborators (spec section 6): they enter the
model as explicit parameters (response flags, raw bytes, the digest function,
the parsed entry list), while every piece of logic written in `src/mod.ts`
itself is translated directly.
-/

namespace NpmFetcher

/-! ## JS string primitives -/

/-- JS `str.split(sep)` for a one-character separator, on char lists.
`"".split(".") = [""]`, `".".split(".") = ["", ""]`. -/
def splitOnCharL (sep : Char) : List Char → List (List Char)
  | [] => [[]]
  | c :: cs =>
    if c = sep then [] :: splitOnCharL sep cs
    else
      match splitOnCharL sep cs with
      | [] => [[c]]
      | h :: t => (c :: h) :: t

/-- JS `str.startsWith(pre)` on char lists (first argument is the candidate
leading segment). -/
def startsWithL : List Char → List Char → Bool
  | [], _ => true
  | _ :: _, [] => false
  | p :: ps, c :: cs => p == c && startsWithL ps cs

/-- JS `str.trim()` on char lists. -/
def trimL (cs : List Char) : List Char :=
  ((cs.dropWhile Char.isWhitespace).reverse.dropWhile Char.isWhitespace).reverse

/-- JS `str.lastIndexOf(c)` on char lists, `none` standing for `-1`. -/
def lastIndexOfChar (c : Char) : List Char → Option Nat
  | [] => none
  | x :: xs =>
    match lastIndexOfChar c xs with
    | some i => some (i + 1)
    | none => if x = c then some 0 else none

/-- Accumulating value of a leading digit run (used to model `parseInt`). -/
def digitsPreAux (acc : Nat) : List Char → Nat
  | [] => acc
  | c :: cs => if c.isDigit then digitsPreAux (10 * acc + (c.toNat - 48)) cs else acc

/-- Value of the leading digit run of a char list; `none` when there is no
leading digit (JS `parseInt` yielding `NaN`). -/
def digitsPre : List Char → Option Nat
  | [] => none
  | c :: cs => if c.isDigit then some (digitsPreAux (c.toNat - 48) cs) else none

/-- Decimal value of an all-digit char list. -/
def decVal (cs : List Char) : Nat :=
  cs.foldl (fun a c => 10 * a + (c.toNat - 48)) 0

/-- JS `parseInt(str, 10)`: skip leading whitespace, optional sign, value of
the leading digit run; `none` for `NaN`. -/
def parseIntL (cs : List Char) : Option Int :=
  let cs := cs.dropWhile Char.isWhitespace
  match cs with
  | [] => none
  | c :: rest =>
    if c = '-' then (digitsPre rest).map (fun n => -(n : Int))
    else if c = '+' then (digitsPre rest).map (fun n => (n : Int))
    else (digitsPre (c :: rest)).map (fun n => (n : Int))

/-! ## parsePackageVersion (src/mod.ts lines 298-312) -/

/-- The `replaceAll` chain of `parsePackageVersion`: drop `~` and `^`,
replace `x`, `X`, `*` by `0`, keep everything else. -/
def stripVersionCharsL (cs : List Char) : List Char :=
  cs.filterMap fun c =>
    if c = '~' then none
    else if c = '^' then none
    else if c = 'x' then some '0'
    else if c = 'X' then some '0'
    else if c = '*' then some '0'
    else some c

/-- JS `parseInt` of one split segment, where the segment may be absent (JS
`undefined`, modelled as `none`) and `NaN` normalizes to 0 — the `isNaN`
fallbacks of `parsePackageVersion`. -/
def versionComp : Option (List Char) → Int
  | none => 0
  | some s => (parseIntL s).getD 0

/-- `parsePackageVersion` from src/mod.ts: strip range characters, split on
`.`, `parseInt` the first three segments, `NaN` (and absent segments, i.e.
JS `undefined`) normalizing to 0. -/
def parsePackageVersionL (cs : List Char) : Int × Int × Int :=
  let parts := splitOnCharL '.' (stripVersionCharsL cs)
  (versionComp (parts.get? 0), versionComp (parts.get? 1), versionComp (parts.get? 2))

/-- String-level wrapper of `parsePackageVersionL`. -/
def parsePackageVersion (packageVersion : String) : Int × Int × Int :=
  parsePackageVersionL packageVersion.toList

/-! ## semVerMatches (src/mod.ts lines 272-296) -/

/-- Whether a split segment contains a digit (JS `p.match(/\d+/)` truthiness). -/
def containsDigitL (cs : List Char) : Bool := cs.any (·.isDigit)

/-- JS `["x", "X", "*"].includes(version)`. -/
def wildcardSpec (cs : List Char) : Bool :=
  cs == ['x'] || cs == ['X'] || cs == ['*']

/-- `semVerMatches` from src/mod.ts on char lists: trim the specifier, count
its digit-containing dot-segments, relax exactness for wildcard / caret /
tilde / short specifiers, then compare parsed components wherever exactness
is still required. -/
def semVerMatchesL (version packageVersion : List Char) : Bool :=
  let v := trimL version
  let versionPartLength := ((splitOnCharL '.' v).filter containsDigitL).length
  let wild := wildcardSpec v
  let caretOrOne := startsWithL ['^'] v || versionPartLength == 1
  let tildeOrTwo := startsWithL ['~'] v || versionPartLength == 2
  let needsExactMajor := !wild
  let needsExactMinor := !wild && !caretOrOne
  let needsExactPatch := !wild && !caretOrOne && !tildeOrTwo
  let t := parsePackageVersionL v
  let p := parsePackageVersionL packageVersion
  (!needsExactMajor || t.1 == p.1) &&
    (!needsExactMinor || t.2.1 == p.2.1) &&
    (!needsExactPatch || t.2.2 == p.2.2)

/-- String-level wrapper of `semVerMatchesL`. -/
def semVerMatches (version packageVersion : String) : Bool :=
  semVerMatchesL version.toList packageVersion.toList

/-! ## findHighestSemVer (src/mod.ts lines 241-270) -/

/-- The `isHighest` comparison of `findHighestSemVer`: is `b` strictly higher
than `a` in (major, minor, patch) order, written exactly as the source's
nested comparisons. -/
def tripleLt (a b : Int × Int × Int) : Bool :=
  b.1 > a.1 || (b.1 == a.1 && (b.2.1 > a.2.1 || (b.2.1 == a.2.1 && b.2.2 > a.2.2)))

/-- One loop iteration of `findHighestSemVer`: state is the current highest
(major, minor, patch) triple (initially (0,0,0)) together with the current
`highestVersion` (initially `null`). -/
def findStep (version : String) (st : (Int × Int × Int) × Option String)
    (packageVersion : String) : (Int × Int × Int) × Option String :=
  if semVerMatches version packageVersion then
    if tripleLt st.1 (parsePackageVersion packageVersion) then
      (parsePackageVersion packageVersion, some packageVersion)
    else st
  else st

/-- `findHighestSemVer` from src/mod.ts: fold the loop over the version list
from highest = (0,0,0), highestVersion = null. -/
def findHighestSemVer (version : String) (versionList : List String) : Option String :=
  (versionList.foldl (findStep version) ((0, 0, 0), none)).2

/-! ## Registry resolver (fetchNpmPackage, src/mod.ts lines 114-200) -/

/-- JS regex test `version.match(/^[\d\.\s]+$/)`: one or more characters,
each a digit, a dot or whitespace (the regex class `\s` is modelled by
`Char.isWhitespace`). -/
def isDigitsDotsSpacesL (cs : List Char) : Bool :=
  !(cs == []) && cs.all (fun c => c.isDigit || c == '.' || c.isWhitespace)

/-- The `registryNeedsVersion` flag of `fetchNpmPackage` (src/mod.ts lines
122-127): true when the registry URL carries a version segment, i.e. for
`"latest"` and for specifiers of digits, dots and whitespace with exactly
three dot-segments. -/
def registryNeedsVersion (version : String) : Bool :=
  version == "latest" ||
    (isDigitsDotsSpacesL version.toList && (splitOnCharL '.' version.toList).length == 3)

/-- The registry URL chosen by `fetchNpmPackage` (src/mod.ts lines 129-137). -/
def registryUrl (packageName version : String) : String :=
  if registryNeedsVersion version then
    "https://registry.npmjs.org/" ++ packageName ++ "/" ++ version
  else
    "https://registry.npmjs.org/" ++ packageName

structure NpmPackageDist where
  tarball : String
  shasum : String
  deriving DecidableEq, Repr

structure NpmPackage where
  name : String
  version : String
  dist : NpmPackageDist
  deriving DecidableEq, Repr

/-- Resolution of `registryJson` in `fetchNpmPackage` (src/mod.ts lines
148-159).  The registry responses are external collaborators: `single` is
the JSON record returned by the versioned URL, `listing` the `versions`
record of the versionless URL (an association list, preserving JS object key
order as seen by `Object.keys`).  On the versionless path the version keys
are enumerated and resolved through `findHighestSemVer`; the final `.error`
branch models a JS `undefined` member access and is unreachable because the
resolved version is drawn from the listing's own keys. -/
def resolveRegistryJson (packageName version : String) (single : NpmPackage)
    (listing : List (String × NpmPackage)) : Except String NpmPackage :=
  if registryNeedsVersion version then .ok single
  else
    match findHighestSemVer version (listing.map (·.1)) with
    | none =>
      .error ("Failed to resolve " ++ packageName ++ "@" ++ version ++
        ", version was not found in registry.")
    | some highestVersion =>
      match (listing.find? (fun p => p.1 == highestVersion)).map (·.2) with
      | some registryJson => .ok registryJson
      | none => .error "Assertion failed, resolved version missing from registry data."

structure FetchedNpmPackageData where
  packageName : String
  version : String
  registryData : NpmPackage
  deriving DecidableEq, Repr

/-- The value returned by `fetchNpmPackage` (src/mod.ts lines 161-164):
`packageName` is the argument itself, `version` and `registryData` come from
the resolved registry record. -/
def fetchNpmPackage (packageName version : String) (single : NpmPackage)
    (listing : List (String × NpmPackage)) : Except String FetchedNpmPackageData :=
  match resolveRegistryJson packageName version single listing with
  | .error e => .error e
  | .ok registryJson =>
    .ok { packageName := packageName
          version := registryJson.version
          registryData := registryJson }

/-! ## splitNameAndVersion (src/mod.ts lines 205-225) -/

/-- `splitNameAndVersion` on char lists: the emptiness test, `lastIndexOf("@")`
and the two slices of the source, with its error strings. -/
def splitCore (cs : List Char) : Except String (List Char × List Char) :=
  if cs = [] then .error "The provided string is empty"
  else
    match lastIndexOfChar '@' cs with
    | none => .error "The provided string contains no version"
    | some index =>
      let packageName := cs.take index
      let version := cs.drop (index + 1)
      if packageName = [] then .error "The provided string contains no package name"
      else if version = [] then .error "The provided string contains no version"
      else .ok (packageName, version)

/-- `splitNameAndVersion` from src/mod.ts. -/
def splitNameAndVersion (nameAndVersion : String) :
    Except String (String × String) :=
  (splitCore nameAndVersion.toList).map fun p => (String.mk p.1, String.mk p.2)

/-! ## Checksum and package contents (getPackageContents, src/mod.ts 165-198) -/

/-- JS `s.padStart(2, "0")` on char lists. -/
def padStart2 (cs : List Char) : List Char :=
  if cs.length < 2 then List.replicate (2 - cs.length) '0' ++ cs else cs

/-- JS `b.toString(16).padStart(2, "0")` for one digest byte (`Nat.toDigits`
produces the same lowercase hex digits as JS `toString(16)`). -/
def byteToHexL (b : Nat) : List Char :=
  padStart2 (Nat.toDigits 16 b)

/-- The `hashHex` computation of src/mod.ts lines 179-180: per-byte lowercase
hex, joined with the empty separator. -/
def hashHexOfDigest (digest : List Nat) : String :=
  String.mk (digest.map byteToHexL).flatten

/-- A tar archive entry as consumed by the source: `fileName` and `type`
(the deno `Untar` entry's type string, compared against `"directory"`). -/
structure TarEntry where
  fileName : String
  type : String
  deriving DecidableEq, Repr

/-- JS `entry.fileName.replace(/^package\//, "")` (src/mod.ts line 195): the
anchored, first-occurrence replace strips one leading `package/` when
present and leaves the name unchanged otherwise. -/
def stripPackageRoot (fileName : String) : String :=
  if startsWithL "package/".toList fileName.toList then
    String.mk (fileName.toList.drop 8)
  else fileName

/-- The `getPackageContents` generator of src/mod.ts lines 165-198, with its
external collaborators explicit: `sha1` is the `crypto.subtle.digest("SHA-1",
-)` primitive as a byte-level function, `tarOk` the tarball response's `ok`
flag, `tarBytes` the raw (compressed) response bytes, and `entries` the tar
entries produced by gzip decompression plus `Untar` of those bytes.  The
generator throws before yielding anything on a bad status or a checksum
mismatch, and otherwise yields every entry with `package/` stripped from the
front of its path; an `.error` result therefore stands for "no entry was
ever yielded". -/
def getPackageContents (packageName version : String)
    (sha1 : List Nat → List Nat) (tarOk : Bool) (tarBytes : List Nat)
    (shasum : String) (entries : List TarEntry) : Except String (List TarEntry) :=
  if tarOk = false then
    .error ("Failed to fetch " ++ packageName ++ "@" ++ version ++
      ", responded with an invalid status code")
  else if hashHexOfDigest (sha1 tarBytes) ≠ shasum then
    .error ("Failed to fetch " ++ packageName ++ "@" ++ version ++ ", checksum failed")
  else
    .ok (entries.map fun e => { e with fileName := stripPackageRoot e.fileName })

/-! ## Paths and the materializer (downloadNpmPackage, src/mod.ts 57-94) -/

/-- One normalization step of posix `path.resolve`: drop empty and `.`
segments, let `..` pop the last collected segment (a no-op at the root),
append anything else. -/
def normStep (acc : List (List Char)) (seg : List Char) : List (List Char) :=
  if seg = [] || seg = ['.'] then acc
  else if seg = ['.', '.'] then acc.dropLast
  else acc ++ [seg]

/-- Posix `path.resolve(base, p)` for an absolute `base`: take `p` itself when
absolute, otherwise `base ++ "/" ++ p`, then normalize the segments. -/
def pathResolveL (base p : List Char) : List Char :=
  let full := if startsWithL ['/'] p then p else base ++ '/' :: p
  '/' :: List.intercalate ['/'] ((splitOnCharL '/' full).foldl normStep [])

/-- String-level wrapper of `pathResolveL`. -/
def pathResolve (base p : String) : String :=
  String.mk (pathResolveL base.toList p.toList)

/-- Containment of a resolved path in a destination root: the root itself or
anything below it. -/
def isContainedIn (root target : String) : Bool :=
  target == root || startsWithL (root.toList ++ ['/']) target.toList

/-- One filesystem effect of the materializer loop: the resolved path, and
whether it was an `ensureDir` (directory entry) or an `ensureFile` + write. -/
structure FsWrite where
  path : String
  isDir : Bool
  deriving DecidableEq, Repr

/-- The materializer loop of `downloadNpmPackage` (src/mod.ts lines 68-79) as
a write trace: each yielded entry is resolved against the destination with
`path.resolve` and written — the source performs no containment check of the
resolved path.  An `.error` of `getPackageContents` aborts the loop before
any write. -/
def downloadNpmPackageWrites (packageName version : String)
    (sha1 : List Nat → List Nat) (tarOk : Bool) (tarBytes : List Nat)
    (shasum : String) (entries : List TarEntry) (destination : String) :
    Except String (List FsWrite) :=
  match getPackageContents packageName version sha1 tarOk tarBytes shasum entries with
  | .error e => .error e
  | .ok es =>
    .ok (es.map fun entry =>
      { path := pathResolve destination entry.fileName
        isDir := entry.type == "directory" })

/-! ## Dependency walker (src/mod.ts lines 81-93 and 227-236) -/

/-- Arguments of one recursive `downloadNpmPackage` invocation, after the
destructuring defaults of src/mod.ts lines 57-63 are applied. -/
structure DownloadCall where
  packageName : String
  version : String
  destination : String
  downloadDependencies : Bool
  downloadDevDependencies : Bool
  deriving DecidableEq, Repr

/-- `downloadPackageDependencies` (src/mod.ts lines 227-236) as the list of
recursive calls it performs, in `Object.entries` order: destination
`resolve(destination, packageName)`, `downloadDependencies: true`, and
`downloadDevDependencies` left at its `false` default. -/
def downloadPackageDependencies (depencencies : List (String × String))
    (destination : String) : List DownloadCall :=
  depencencies.map fun d =>
    { packageName := d.1
      version := d.2
      destination := pathResolve destination d.1
      downloadDependencies := true
      downloadDevDependencies := false }

/-- The dependency phase of `downloadNpmPackage` (src/mod.ts lines 81-93) as
the list of recursive calls: when either flag is set, the manifest's
dependency maps are walked with `nodeModulesPath = resolve(destination,
"node_modules")`. -/
def downloadNpmPackageDependencyPhase (destination : String)
    (deps devDeps : List (String × String))
    (downloadDependencies downloadDevDependencies : Bool) : List DownloadCall :=
  if downloadDependencies || downloadDevDependencies then
    let nodeModulesPath := pathResolve destination "node_modules"
    (if downloadDependencies then downloadPackageDependencies deps nodeModulesPath else []) ++
      (if downloadDevDependencies then downloadPackageDependencies devDeps nodeModulesPath else [])
  else []

instance {ε α : Type} [DecidableEq ε] [DecidableEq α] : DecidableEq (Except ε α) :=
  fun a b =>
    match a, b with
    | .error x, .error y =>
      match decEq x y with
      | isTrue h => isTrue (h ▸ rfl)
      | isFalse h => isFalse (fun e => h (Except.error.inj e))
    | .error _, .ok _ => isFalse (fun e => Except.noConfusion e)
    | .ok _, .error _ => isFalse (fun e => Except.noConfusion e)
    | .ok x, .ok y =>
      match decEq x y with
      | isTrue h => isTrue (h ▸ rfl)
      | isFalse h => isFalse (fun e => h (Except.ok.inj e))

/-- JS `c.toLowerCase()` for one ASCII character. -/
def toLowerChar (c : Char) : Char :=
  if 'A' ≤ c && c ≤ 'Z' then Char.ofNat (c.toNat + 32) else c

/-- JS `s.toLowerCase()` on char lists (ASCII range). -/
def toLowerL (cs : List Char) : List Char := cs.map toLowerChar

/-! ## Lemmas about lastIndexOfChar and splitCore -/

theorem lastIndexOfChar_eq_none {c : Char} {cs : List Char} :
    lastIndexOfChar c cs = none ↔ c ∉ cs := by
  induction cs with
  | nil => simp [lastIndexOfChar]
  | cons x xs ih =>
    simp only [lastIndexOfChar]
    cases h : lastIndexOfChar c xs with
    | some j =>
      have hc : c ∈ xs := by
        by_contra hc
        rw [ih.mpr hc] at h
        cases h
      simp [List.mem_cons, hc]
    | none =>
      have hc : c ∉ xs := ih.mp h
      by_cases hx : x = c
      · subst hx
        simp
      · rw [if_neg hx]
        constructor
        · intro _
          simp only [List.mem_cons, not_or]
          exact ⟨fun hcx => hx hcx.symm, hc⟩
        · intro _
          rfl

theorem lastIndexOfChar_eq_some {c : Char} {cs : List Char} {i : Nat} :
    lastIndexOfChar c cs = some i ↔
      ∃ pre suf, cs = pre ++ c :: suf ∧ pre.length = i ∧ c ∉ suf := by
  induction cs generalizing i with
  | nil =>
    simp only [lastIndexOfChar]
    constructor
    · intro h; cases h
    · rintro ⟨pre, suf, hcs, -, -⟩
      cases pre <;> cases hcs
  | cons x xs ih =>
    cases h : lastIndexOfChar c xs with
    | some j =>
      have hstep : lastIndexOfChar c (x :: xs) = some (j + 1) := by
        simp only [lastIndexOfChar, h]
      rw [hstep]
      constructor
      · intro hi
        injection hi with hi
        obtain ⟨pre, suf, hcs, hlen, hns⟩ := ih.mp h
        exact ⟨x :: pre, suf, by simp [hcs], by simp [hlen, hi], hns⟩
      · rintro ⟨pre, suf, hcs, hlen, hns⟩
        cases pre with
        | nil =>
          have hcxs : c ∈ xs := by
            by_contra hcxs
            rw [lastIndexOfChar_eq_none.mpr hcxs] at h
            cases h
          obtain ⟨-, hsuf⟩ := List.cons.inj hcs
          rw [hsuf] at hcxs
          exact absurd hcxs hns
        | cons y pre' =>
          obtain ⟨-, hxs⟩ := List.cons.inj hcs
          have h2 : lastIndexOfChar c xs = some pre'.length :=
            ih.mpr ⟨pre', suf, hxs, rfl, hns⟩
          rw [h] at h2
          injection h2 with h2
          simp only [List.length_cons] at hlen
          rw [← hlen, h2]
    | none =>
      have hnx : c ∉ xs := lastIndexOfChar_eq_none.mp h
      by_cases hx : x = c
      · have hstep : lastIndexOfChar c (x :: xs) = some 0 := by
          simp only [lastIndexOfChar, h, if_pos hx]
        rw [hstep]
        constructor
        · intro hi
          injection hi with hi
          exact ⟨[], xs, by simp [hx], hi, hnx⟩
        · rintro ⟨pre, suf, hcs, hlen, hns⟩
          cases pre with
          | nil => simp [← hlen]
          | cons y pre' =>
            obtain ⟨-, hxs⟩ := List.cons.inj hcs
            exact absurd (hxs ▸ List.mem_append_right pre' (List.mem_cons_self c suf)) hnx
      · have hstep : lastIndexOfChar c (x :: xs) = none := by
          simp only [lastIndexOfChar, h, if_neg hx]
        rw [hstep]
        constructor
        · intro hi; cases hi
        · rintro ⟨pre, suf, hcs, hlen, hns⟩
          cases pre with
          | nil =>
            obtain ⟨hxc, -⟩ := List.cons.inj hcs
            exact absurd hxc hx
          | cons y pre' =>
            obtain ⟨-, hxs⟩ := List.cons.inj hcs
            exact absurd (hxs ▸ List.mem_append_right pre' (List.mem_cons_self c suf)) hnx

theorem drop_len_succ_append (a b : List Char) (c : Char) :
    (a ++ c :: b).drop (a.length + 1) = b := by
  have h : a ++ c :: b = (a ++ [c]) ++ b := by simp
  have h2 : (a ++ [c]).length = a.length + 1 := by simp
  rw [h, ← h2, List.drop_left]

theorem splitCore_eval {pre suf : List Char} (hns : '@' ∉ suf) :
    splitCore (pre ++ '@' :: suf) =
      if pre = [] then .error "The provided string contains no package name"
      else if suf = [] then .error "The provided string contains no version"
      else .ok (pre, suf) := by
  have hcs : ¬pre ++ '@' :: suf = [] := by cases pre <;> simp
  have hl : lastIndexOfChar '@' (pre ++ '@' :: suf) = some pre.length :=
    lastIndexOfChar_eq_some.mpr ⟨pre, suf, rfl, rfl, hns⟩
  unfold splitCore
  rw [if_neg hcs, hl]
  simp only [List.take_left, drop_len_succ_append]

theorem splitCore_ok_iff {cs n v : List Char} :
    splitCore cs = .ok (n, v) ↔
      (cs = n ++ '@' :: v ∧ n ≠ [] ∧ v ≠ [] ∧ '@' ∉ v) := by
  constructor
  · intro h
    have hcs : cs ≠ [] := by
      intro e
      rw [e] at h
      simp [splitCore] at h
    cases hl : lastIndexOfChar '@' cs with
    | none =>
      unfold splitCore at h
      rw [if_neg hcs, hl] at h
      cases h
    | some i =>
      obtain ⟨pre, suf, hdec, hlen, hns⟩ := lastIndexOfChar_eq_some.mp hl
      rw [hdec, splitCore_eval hns] at h
      by_cases hp : pre = []
      · rw [if_pos hp] at h; cases h
      rw [if_neg hp] at h
      by_cases hs : suf = []
      · rw [if_pos hs] at h; cases h
      rw [if_neg hs] at h
      obtain ⟨hn, hv⟩ := Prod.mk.inj (Except.ok.inj h)
      subst hn; subst hv
      exact ⟨hdec, hp, hs, hns⟩
  · rintro ⟨hdec, hn, hv, hns⟩
    rw [hdec, splitCore_eval hns, if_neg hn, if_neg hv]

theorem lastAt_decomp_unique {cs pre suf pre2 suf2 : List Char}
    (h1 : cs = pre ++ '@' :: suf) (hn1 : '@' ∉ suf)
    (h2 : cs = pre2 ++ '@' :: suf2) (hn2 : '@' ∉ suf2) :
    pre = pre2 ∧ suf = suf2 := by
  have e1 : lastIndexOfChar '@' cs = some pre.length :=
    lastIndexOfChar_eq_some.mpr ⟨pre, suf, h1, rfl, hn1⟩
  have e2 : lastIndexOfChar '@' cs = some pre2.length :=
    lastIndexOfChar_eq_some.mpr ⟨pre2, suf2, h2, rfl, hn2⟩
  rw [e1] at e2
  injection e2 with e2
  have hpre : pre = pre2 := by
    have t1 : cs.take pre.length = pre := by rw [h1, List.take_left]
    have t2 : cs.take pre2.length = pre2 := by rw [h2, List.take_left]
    rw [← t1, ← t2, e2]
  refine ⟨hpre, ?_⟩
  rw [hpre] at h1
  have := h1.symm.trans h2
  exact (List.cons.inj (List.append_cancel_left this)).2

/-! ## The (major, minor, patch) order and the findHighestSemVer fold -/

/-- Non-strict lexicographic order on parsed version triples. -/
def tripleLe (a b : Int × Int × Int) : Prop :=
  a.1 < b.1 ∨ (a.1 = b.1 ∧ (a.2.1 < b.2.1 ∨ (a.2.1 = b.2.1 ∧ a.2.2 ≤ b.2.2)))

theorem tripleLe_refl (a : Int × Int × Int) : tripleLe a a :=
  Or.inr ⟨rfl, Or.inr ⟨rfl, le_refl _⟩⟩

theorem tripleLe_trans {a b c : Int × Int × Int}
    (h1 : tripleLe a b) (h2 : tripleLe b c) : tripleLe a c := by
  obtain ⟨a1, a2, a3⟩ := a
  obtain ⟨b1, b2, b3⟩ := b
  obtain ⟨c1, c2, c3⟩ := c
  simp only [tripleLe] at *
  omega

theorem tripleLt_le {a b : Int × Int × Int} (h : tripleLt a b = true) : tripleLe a b := by
  obtain ⟨a1, a2, a3⟩ := a
  obtain ⟨b1, b2, b3⟩ := b
  simp only [tripleLt, Bool.or_eq_true, Bool.and_eq_true, decide_eq_true_eq,
    beq_iff_eq, gt_iff_lt] at h
  simp only [tripleLe]
  omega

theorem tripleLt_false_le {a b : Int × Int × Int} (h : tripleLt a b = false) :
    tripleLe b a := by
  obtain ⟨a1, a2, a3⟩ := a
  obtain ⟨b1, b2, b3⟩ := b
  have h2 : ¬tripleLt (a1, a2, a3) (b1, b2, b3) = true := by simp [h]
  simp only [tripleLt, Bool.or_eq_true, Bool.and_eq_true, decide_eq_true_eq,
    beq_iff_eq, gt_iff_lt] at h2
  simp only [tripleLe]
  omega

theorem findStep_cases (version : String) (st : (Int × Int × Int) × Option String)
    (pv : String) :
    (semVerMatches version pv = false ∧ findStep version st pv = st) ∨
    (semVerMatches version pv = true ∧ tripleLt st.1 (parsePackageVersion pv) = false ∧
      findStep version st pv = st) ∨
    (semVerMatches version pv = true ∧ tripleLt st.1 (parsePackageVersion pv) = true ∧
      findStep version st pv = (parsePackageVersion pv, some pv)) := by
  unfold findStep
  cases h1 : semVerMatches version pv with
  | false => exact Or.inl ⟨rfl, by simp⟩
  | true =>
    cases h2 : tripleLt st.1 (parsePackageVersion pv) with
    | false => exact Or.inr (Or.inl ⟨rfl, rfl, by simp⟩)
    | true => exact Or.inr (Or.inr ⟨rfl, rfl, by simp⟩)

theorem foldFind_fst_mono (version : String) (l : List String) :
    ∀ st : (Int × Int × Int) × Option String,
      tripleLe st.1 (l.foldl (findStep version) st).1 := by
  induction l with
  | nil => intro st; exact tripleLe_refl _
  | cons x xs ih =>
    intro st
    simp only [List.foldl_cons]
    rcases findStep_cases version st x with ⟨-, h⟩ | ⟨-, -, h⟩ | ⟨-, hlt, h⟩
    · rw [h]; exact ih st
    · rw [h]; exact ih st
    · rw [h]
      exact tripleLe_trans (tripleLt_le hlt) (ih _)

theorem foldFind_fst_ge (version : String) (l : List String) :
    ∀ st, ∀ c ∈ l, semVerMatches version c = true →
      tripleLe (parsePackageVersion c) (l.foldl (findStep version) st).1 := by
  induction l with
  | nil =>
    intro st c hc
    exact absurd hc (List.not_mem_nil c)
  | cons x xs ih =>
    intro st c hc hm
    simp only [List.foldl_cons]
    rcases List.mem_cons.mp hc with rfl | hc2
    · rcases findStep_cases version st c with ⟨hm2, h⟩ | ⟨-, hlt, h⟩ | ⟨-, -, h⟩
      · rw [hm2] at hm; cases hm
      · rw [h]
        exact tripleLe_trans (tripleLt_false_le hlt) (foldFind_fst_mono version xs st)
      · rw [h]
        exact foldFind_fst_mono version xs (parsePackageVersion c, some c)
    · exact ih (findStep version st x) c hc2 hm

theorem foldFind_achieved (version : String) (l : List String) :
    ∀ s : String, ∀ st, st = (parsePackageVersion s, some s) →
      ∃ best, l.foldl (findStep version) st = (parsePackageVersion best, some best) ∧
        (best = s ∨ (best ∈ l ∧ semVerMatches version best = true)) := by
  induction l with
  | nil =>
    intro s st hst
    exact ⟨s, by simpa using hst, Or.inl rfl⟩
  | cons x xs ih =>
    intro s st hst
    simp only [List.foldl_cons]
    rcases findStep_cases version st x with ⟨-, h⟩ | ⟨-, -, h⟩ | ⟨hm, -, h⟩
    · rw [h]
      obtain ⟨best, hb, hor⟩ := ih s st hst
      refine ⟨best, hb, ?_⟩
      rcases hor with h2 | ⟨h2, h3⟩
      · exact Or.inl h2
      · exact Or.inr ⟨List.mem_cons_of_mem x h2, h3⟩
    · rw [h]
      obtain ⟨best, hb, hor⟩ := ih s st hst
      refine ⟨best, hb, ?_⟩
      rcases hor with h2 | ⟨h2, h3⟩
      · exact Or.inl h2
      · exact Or.inr ⟨List.mem_cons_of_mem x h2, h3⟩
    · rw [h]
      obtain ⟨best, hb, hor⟩ := ih x (parsePackageVersion x, some x) rfl
      refine ⟨best, hb, ?_⟩
      rcases hor with h2 | ⟨h2, h3⟩
      · exact Or.inr ⟨by rw [h2]; exact List.mem_cons_self x xs, by rw [h2]; exact hm⟩
      · exact Or.inr ⟨List.mem_cons_of_mem x h2, h3⟩

theorem foldFind_reaches (version : String) (l : List String) :
    ∀ st, (∃ c ∈ l, semVerMatches version c = true ∧
        tripleLt st.1 (parsePackageVersion c) = true) →
      ∃ best ∈ l, semVerMatches version best = true ∧
        l.foldl (findStep version) st = (parsePackageVersion best, some best) := by
  induction l with
  | nil =>
    rintro st ⟨c, hc, -⟩
    exact absurd hc (List.not_mem_nil c)
  | cons x xs ih =>
    rintro st ⟨c, hc, hm, hlt⟩
    simp only [List.foldl_cons]
    rcases findStep_cases version st x with ⟨hmx, hstep⟩ | ⟨hmx, hltx, hstep⟩ | ⟨hmx, hltx, hstep⟩
    · rw [hstep]
      have hcxs : c ∈ xs := by
        rcases List.mem_cons.mp hc with rfl | h2
        · rw [hmx] at hm; cases hm
        · exact h2
      obtain ⟨best, hb1, hb2, hb3⟩ := ih st ⟨c, hcxs, hm, hlt⟩
      exact ⟨best, List.mem_cons_of_mem x hb1, hb2, hb3⟩
    · rw [hstep]
      have hcxs : c ∈ xs := by
        rcases List.mem_cons.mp hc with rfl | h2
        · rw [hltx] at hlt; cases hlt
        · exact h2
      obtain ⟨best, hb1, hb2, hb3⟩ := ih st ⟨c, hcxs, hm, hlt⟩
      exact ⟨best, List.mem_cons_of_mem x hb1, hb2, hb3⟩
    · rw [hstep]
      obtain ⟨best, hb, hor⟩ :=
        foldFind_achieved version xs x (parsePackageVersion x, some x) rfl
      rcases hor with h2 | ⟨h2, h3⟩
      · exact ⟨best, by rw [h2]; exact List.mem_cons_self x xs, by rw [h2]; exact hmx, hb⟩
      · exact ⟨best, List.mem_cons_of_mem x h2, h3, hb⟩

theorem findHighest_spec (version : String) (l : List String)
    (h : ∃ c ∈ l, semVerMatches version c = true ∧
      tripleLt (0, 0, 0) (parsePackageVersion c) = true) :
    ∃ best ∈ l, findHighestSemVer version l = some best ∧
      semVerMatches version best = true ∧
      ∀ c ∈ l, semVerMatches version c = true →
        tripleLe (parsePackageVersion c) (parsePackageVersion best) := by
  obtain ⟨best, hb1, hb2, hb3⟩ := foldFind_reaches version l ((0, 0, 0), none) h
  refine ⟨best, hb1, ?_, hb2, ?_⟩
  · unfold findHighestSemVer
    rw [hb3]
  · intro c hc hm
    have h2 := foldFind_fst_ge version l ((0, 0, 0), none) c hc hm
    rw [hb3] at h2
    exact h2

/-! ## Evaluation of the matcher on caret specifiers -/

theorem dropWhile_eq_self_of {p : Char → Bool} {cs : List Char}
    (h : ∀ c ∈ cs, p c = false) : cs.dropWhile p = cs := by
  cases cs with
  | nil => rfl
  | cons x xs =>
    rw [List.dropWhile_cons, if_neg]
    simp [h x (List.mem_cons_self x xs)]

theorem trimL_eq_self {cs : List Char} (h : ∀ c ∈ cs, c.isWhitespace = false) :
    trimL cs = cs := by
  unfold trimL
  rw [dropWhile_eq_self_of h,
    dropWhile_eq_self_of (fun c hc => h c (List.mem_reverse.mp hc)),
    List.reverse_reverse]

theorem isDigit_ne {c d : Char} (hc : c.isDigit = true) (hd : d.isDigit = false) :
    c ≠ d := by
  intro e
  rw [e, hd] at hc
  cases hc

theorem digit_not_ws {c : Char} (h : c.isDigit = true) : c.isWhitespace = false := by
  cases hw : c.isWhitespace
  · rfl
  · exfalso
    simp only [Char.isWhitespace, Bool.or_eq_true, decide_eq_true_eq] at hw
    rcases hw with ((rfl | rfl) | rfl) | rfl <;> exact absurd h (by decide)

theorem splitOnCharL_no_sep {sep : Char} {cs : List Char} (h : sep ∉ cs) :
    splitOnCharL sep cs = [cs] := by
  induction cs with
  | nil => rfl
  | cons x xs ih =>
    have hx : ¬x = sep := fun e => h (e ▸ List.mem_cons_self x xs)
    have hxs : sep ∉ xs := fun e => h (List.mem_cons_of_mem x e)
    simp only [splitOnCharL, if_neg hx, ih hxs]

theorem splitOnCharL_append {sep : Char} {a : List Char} (b : List Char) (h : sep ∉ a) :
    splitOnCharL sep (a ++ sep :: b) = a :: splitOnCharL sep b := by
  induction a with
  | nil => simp [splitOnCharL]
  | cons x xs ih =>
    have hx : ¬x = sep := fun e => h (e ▸ List.mem_cons_self x xs)
    have hxs : sep ∉ xs := fun e => h (List.mem_cons_of_mem x e)
    have ihx : splitOnCharL sep (xs.append (sep :: b)) = xs :: splitOnCharL sep b :=
      ih hxs
    simp only [List.cons_append, splitOnCharL, if_neg hx, ih hxs, ihx]

theorem filterMap_id_of {f : Char → Option Char} {cs : List Char}
    (h : ∀ c ∈ cs, f c = some c) : cs.filterMap f = cs := by
  induction cs with
  | nil => rfl
  | cons x xs ih =>
    rw [List.filterMap_cons, h x (List.mem_cons_self x xs),
      ih (fun c hc => h c (List.mem_cons_of_mem x hc))]

theorem strip_digits {cs : List Char} (h : ∀ c ∈ cs, c.isDigit = true) :
    stripVersionCharsL cs = cs := by
  apply filterMap_id_of
  intro c hc
  have h1 := isDigit_ne (h c hc) (show Char.isDigit '~' = false by decide)
  have h2 := isDigit_ne (h c hc) (show Char.isDigit '^' = false by decide)
  have h3 := isDigit_ne (h c hc) (show Char.isDigit 'x' = false by decide)
  have h4 := isDigit_ne (h c hc) (show Char.isDigit 'X' = false by decide)
  have h5 := isDigit_ne (h c hc) (show Char.isDigit '*' = false by decide)
  simp [h1, h2, h3, h4, h5]

theorem strip_append (a b : List Char) :
    stripVersionCharsL (a ++ b) = stripVersionCharsL a ++ stripVersionCharsL b := by
  simp [stripVersionCharsL, List.filterMap_append]

theorem strip_cons_dot (t : List Char) :
    stripVersionCharsL ('.' :: t) = '.' :: stripVersionCharsL t := by
  simp [stripVersionCharsL, List.filterMap_cons]

theorem strip_cons_caret (t : List Char) :
    stripVersionCharsL ('^' :: t) = stripVersionCharsL t := by
  simp [stripVersionCharsL, List.filterMap_cons]

theorem digitsPreAux_eq_foldl (cs : List Char) :
    ∀ acc, (∀ c ∈ cs, c.isDigit = true) →
      digitsPreAux acc cs = cs.foldl (fun a c => 10 * a + (c.toNat - 48)) acc := by
  induction cs with
  | nil => intro acc _; rfl
  | cons x xs ih =>
    intro acc h
    rw [List.foldl_cons]
    unfold digitsPreAux
    rw [if_pos (h x (List.mem_cons_self x xs))]
    exact ih _ (fun c hc => h c (List.mem_cons_of_mem x hc))

theorem digitsPre_all_digits {cs : List Char} (hne : cs ≠ [])
    (h : ∀ c ∈ cs, c.isDigit = true) : digitsPre cs = some (decVal cs) := by
  cases cs with
  | nil => exact absurd rfl hne
  | cons x xs =>
    show (if x.isDigit = true then some (digitsPreAux (x.toNat - 48) xs) else none) =
      some (decVal (x :: xs))
    rw [if_pos (h x (List.mem_cons_self x xs))]
    rw [digitsPreAux_eq_foldl xs _ (fun c hc => h c (List.mem_cons_of_mem x hc))]
    unfold decVal
    rw [List.foldl_cons]
    norm_num

theorem parseIntL_cons_eval (x : Char) (xs : List Char)
    (hdw : (x :: xs).dropWhile Char.isWhitespace = x :: xs) :
    parseIntL (x :: xs) =
      if x = '-' then (digitsPre xs).map (fun n => -(n : Int))
      else if x = '+' then (digitsPre xs).map (fun n => (n : Int))
      else (digitsPre (x :: xs)).map (fun n => (n : Int)) := by
  unfold parseIntL
  rw [hdw]

theorem parseIntL_digits {cs : List Char} (hne : cs ≠ [])
    (h : ∀ c ∈ cs, c.isDigit = true) : parseIntL cs = some ((decVal cs : Nat) : Int) := by
  cases cs with
  | nil => exact absurd rfl hne
  | cons x xs =>
    have hdw : (x :: xs).dropWhile Char.isWhitespace = x :: xs :=
      dropWhile_eq_self_of (fun c hc => digit_not_ws (h c hc))
    have hx1 : ¬x = '-' := isDigit_ne (h x (List.mem_cons_self x xs)) (by decide)
    have hx2 : ¬x = '+' := isDigit_ne (h x (List.mem_cons_self x xs)) (by decide)
    rw [parseIntL_cons_eval x xs hdw, if_neg hx1, if_neg hx2,
      digitsPre_all_digits (List.cons_ne_nil x xs) h]
    rfl

theorem containsDigitL_of_mem {cs : List Char} {c : Char} (hc : c ∈ cs)
    (hd : c.isDigit = true) : containsDigitL cs = true := by
  simp only [containsDigitL, List.any_eq_true]
  exact ⟨c, hc, hd⟩

theorem parse_caret {ms ns ps : List Char} (hms : ms ≠ []) (hns : ns ≠ []) (hps : ps ≠ [])
    (hmsd : ∀ c ∈ ms, c.isDigit = true) (hnsd : ∀ c ∈ ns, c.isDigit = true)
    (hpsd : ∀ c ∈ ps, c.isDigit = true) :
    parsePackageVersionL ('^' :: ms ++ '.' :: ns ++ '.' :: ps) =
      (((decVal ms : Nat) : Int), ((decVal ns : Nat) : Int), ((decVal ps : Nat) : Int)) := by
  have hdm : '.' ∉ ms := fun hc => absurd (hmsd '.' hc) (by decide)
  have hdn : '.' ∉ ns := fun hc => absurd (hnsd '.' hc) (by decide)
  have hdp : '.' ∉ ps := fun hc => absurd (hpsd '.' hc) (by decide)
  have hstrip : stripVersionCharsL ('^' :: ms ++ '.' :: ns ++ '.' :: ps) =
      ms ++ '.' :: ns ++ '.' :: ps := by
    rw [strip_append, strip_append, strip_cons_caret, strip_cons_dot, strip_cons_dot,
      strip_digits hmsd, strip_digits hnsd, strip_digits hpsd]
  have hsplit : splitOnCharL '.' (ms ++ '.' :: ns ++ '.' :: ps) = [ms, ns, ps] := by
    rw [show (ms ++ '.' :: ns ++ '.' :: ps : List Char) =
      ms ++ '.' :: (ns ++ '.' :: ps) from by simp]
    rw [splitOnCharL_append _ hdm, splitOnCharL_append _ hdn, splitOnCharL_no_sep hdp]
  unfold parsePackageVersionL
  rw [hstrip, hsplit]
  show (versionComp ([ms, ns, ps].get? 0), versionComp ([ms, ns, ps].get? 1),
      versionComp ([ms, ns, ps].get? 2)) = _
  rw [show [ms, ns, ps].get? 0 = some ms from rfl,
    show [ms, ns, ps].get? 1 = some ns from rfl,
    show [ms, ns, ps].get? 2 = some ps from rfl,
    show versionComp (some ms) = (parseIntL ms).getD 0 from rfl,
    show versionComp (some ns) = (parseIntL ns).getD 0 from rfl,
    show versionComp (some ps) = (parseIntL ps).getD 0 from rfl,
    parseIntL_digits hms hmsd, parseIntL_digits hns hnsd, parseIntL_digits hps hpsd]
  rfl

theorem semVerMatchesL_caret {ms ns ps : List Char}
    (hms : ms ≠ []) (hns : ns ≠ []) (hps : ps ≠ [])
    (hmsd : ∀ c ∈ ms, c.isDigit = true) (hnsd : ∀ c ∈ ns, c.isDigit = true)
    (hpsd : ∀ c ∈ ps, c.isDigit = true) (pv : List Char) :
    semVerMatchesL ('^' :: ms ++ '.' :: ns ++ '.' :: ps) pv =
      (((decVal ms : Nat) : Int) == (parsePackageVersionL pv).1) := by
  have hdn : '.' ∉ ns := fun hc => absurd (hnsd '.' hc) (by decide)
  have hdp : '.' ∉ ps := fun hc => absurd (hpsd '.' hc) (by decide)
  have hm0 : ∃ c ∈ ms, c.isDigit = true := by
    cases ms with
    | nil => exact absurd rfl hms
    | cons m mss => exact ⟨m, List.mem_cons_self m mss, hmsd m (List.mem_cons_self m mss)⟩
  have hn0 : ∃ c ∈ ns, c.isDigit = true := by
    cases ns with
    | nil => exact absurd rfl hns
    | cons m mss => exact ⟨m, List.mem_cons_self m mss, hnsd m (List.mem_cons_self m mss)⟩
  have hp0 : ∃ c ∈ ps, c.isDigit = true := by
    cases ps with
    | nil => exact absurd rfl hps
    | cons m mss => exact ⟨m, List.mem_cons_self m mss, hpsd m (List.mem_cons_self m mss)⟩
  have hws : ∀ c ∈ ('^' :: ms ++ '.' :: ns ++ '.' :: ps), c.isWhitespace = false := by
    intro c hc
    rcases List.mem_append.mp hc with h12 | h3
    · rcases List.mem_append.mp h12 with h1 | h2
      · rcases List.mem_cons.mp h1 with rfl | h1
        · decide
        · exact digit_not_ws (hmsd c h1)
      · rcases List.mem_cons.mp h2 with rfl | h2
        · decide
        · exact digit_not_ws (hnsd c h2)
    · rcases List.mem_cons.mp h3 with rfl | h3
      · decide
      · exact digit_not_ws (hpsd c h3)
  have htrim : trimL ('^' :: ms ++ '.' :: ns ++ '.' :: ps) =
      '^' :: ms ++ '.' :: ns ++ '.' :: ps := trimL_eq_self hws
  have hdm2 : '.' ∉ ('^' :: ms) := by
    intro hc
    rcases List.mem_cons.mp hc with h2 | h2
    · exact absurd h2 (by decide)
    · exact absurd (hmsd '.' h2) (by decide)
  have hsplit2 : splitOnCharL '.' ('^' :: ms ++ '.' :: ns ++ '.' :: ps) =
      [('^' :: ms), ns, ps] := by
    rw [show ('^' :: ms ++ '.' :: ns ++ '.' :: ps : List Char) =
      ('^' :: ms) ++ '.' :: (ns ++ '.' :: ps) from by simp]
    rw [splitOnCharL_append _ hdm2, splitOnCharL_append _ hdn, splitOnCharL_no_sep hdp]
  obtain ⟨cm, hcm, hcmd⟩ := hm0
  obtain ⟨cn, hcn, hcnd⟩ := hn0
  obtain ⟨cp, hcp, hcpd⟩ := hp0
  have hf1 : containsDigitL ('^' :: ms) = true :=
    containsDigitL_of_mem (List.mem_cons_of_mem '^' hcm) hcmd
  have hf2 : containsDigitL ns = true := containsDigitL_of_mem hcn hcnd
  have hf3 : containsDigitL ps = true := containsDigitL_of_mem hcp hcpd
  have hfilter : (([('^' :: ms), ns, ps].filter containsDigitL).length) = 3 := by
    simp [List.filter, hf1, hf2, hf3]
  have hwild : wildcardSpec ('^' :: ms ++ '.' :: ns ++ '.' :: ps) = false := by
    simp only [wildcardSpec, Bool.or_eq_false_iff]
    refine ⟨⟨?_, ?_⟩, ?_⟩ <;> · apply beq_eq_false_iff_ne.mpr; simp
  have hstart : startsWithL ['^'] ('^' :: ms ++ '.' :: ns ++ '.' :: ps) = true := rfl
  have hstart2 : startsWithL ['~'] ('^' :: ms ++ '.' :: ns ++ '.' :: ps) = false := rfl
  have hparse := parse_caret hms hns hps hmsd hnsd hpsd
  simp only [semVerMatchesL]
  rw [htrim, hsplit2, hfilter, hwild, hstart, hstart2, hparse]
  simp

/-! ## String-level bridges -/

theorem toList_mk (l : List Char) : (String.mk l).toList = l := rfl

theorem mk_toList (s : String) : String.mk s.toList = s := rfl

theorem string_eq_iff_toList {s t : String} : s = t ↔ s.toList = t.toList := by
  constructor
  · intro h; rw [h]
  · intro h
    rw [← mk_toList s, ← mk_toList t, h]

theorem toList_append (s t : String) : (s ++ t).toList = s.toList ++ t.toList := rfl

theorem string_ne_empty_iff {s : String} : s ≠ "" ↔ s.toList ≠ [] := by
  constructor
  · intro h he
    exact h (string_eq_iff_toList.mpr he)
  · intro h he
    exact h (string_eq_iff_toList.mp he)

theorem string_empty_iff {s : String} : s = "" ↔ s.toList = [] :=
  string_eq_iff_toList

theorem string_at_decomp_iff {s n v : String} :
    s = n ++ "@" ++ v ↔ s.toList = n.toList ++ '@' :: v.toList := by
  rw [string_eq_iff_toList]
  constructor <;> intro h <;> simpa [toList_append] using h

theorem splitNameAndVersion_ok_iff {s n v : String} :
    splitNameAndVersion s = .ok (n, v) ↔
      splitCore s.toList = .ok (n.toList, v.toList) := by
  unfold splitNameAndVersion
  cases h : splitCore s.toList with
  | error e => simp [Except.map]
  | ok p =>
    obtain ⟨a, b⟩ := p
    simp only [Except.map, Except.ok.injEq, Prod.mk.injEq]
    constructor
    · rintro ⟨ha, hb⟩
      rw [← ha, ← hb]
      exact ⟨rfl, rfl⟩
    · rintro ⟨ha, hb⟩
      rw [ha, hb]
      exact ⟨mk_toList n, mk_toList v⟩

theorem splitNameAndVersion_error_iff {s : String} :
    (∃ e, splitNameAndVersion s = .error e) ↔
      (∃ e, splitCore s.toList = .error e) := by
  unfold splitNameAndVersion
  cases h : splitCore s.toList <;> simp [Except.map]

theorem splitCore_error_iff {cs : List Char} :
    (∃ e, splitCore cs = .error e) ↔
      (cs = [] ∨ '@' ∉ cs ∨
        ∃ pre suf, cs = pre ++ '@' :: suf ∧ '@' ∉ suf ∧ (pre = [] ∨ suf = [])) := by
  by_cases hcs : cs = []
  · subst hcs
    simp [splitCore]
  · cases hl : lastIndexOfChar '@' cs with
    | none =>
      have hno : '@' ∉ cs := lastIndexOfChar_eq_none.mp hl
      have hval : splitCore cs = .error "The provided string contains no version" := by
        unfold splitCore
        rw [if_neg hcs, hl]
      constructor
      · intro _
        exact Or.inr (Or.inl hno)
      · intro _
        exact ⟨_, hval⟩
    | some i =>
      obtain ⟨pre, suf, hdec, hlen, hns⟩ := lastIndexOfChar_eq_some.mp hl
      rw [hdec, splitCore_eval hns]
      by_cases hp : pre = []
      · rw [if_pos hp]
        constructor
        · intro _
          exact Or.inr (Or.inr ⟨pre, suf, rfl, hns, Or.inl hp⟩)
        · intro _
          exact ⟨_, rfl⟩
      · rw [if_neg hp]
        by_cases hs : suf = []
        · rw [if_pos hs]
          constructor
          · intro _
            exact Or.inr (Or.inr ⟨pre, suf, rfl, hns, Or.inr hs⟩)
          · intro _
            exact ⟨_, rfl⟩
        · rw [if_neg hs]
          constructor
          · rintro ⟨e, he⟩
            cases he
          · rintro (habs | habs | ⟨pre2, suf2, hdec2, hns2, hdeg⟩)
            · exact absurd habs (by cases pre <;> simp)
            · exact absurd (List.mem_append_right _ (List.mem_cons_self _ _)) habs
            · obtain ⟨hpe, hse⟩ := lastAt_decomp_unique rfl hns hdec2 hns2
              cases hdeg with
              | inl h2 => exact absurd (hpe.trans h2) hp
              | inr h2 => exact absurd (hse.trans h2) hs

/-! ## Claims -/

/-- C1: the claim states that every resolved target path is verified to lie
within the destination root and that a `..`-escaping entry is rejected with a
path-traversal error.  The materializer loop of `downloadNpmPackage`
(src/mod.ts lines 68-79) performs no such check: the entry `package/../evil`
of an otherwise valid archive is resolved to `/evil`, outside the destination
root `/dest`, and the loop emits a file write at that path with no error. -/
theorem claim_c1_no_traversal_check :
    downloadNpmPackageWrites "p" "1.0.0" (fun _ => []) true [] ""
        [⟨"package/../evil", "file"⟩] "/dest" =
      .ok [⟨"/evil", false⟩] ∧
    isContainedIn "/dest" "/evil" = false := by
  exact ⟨rfl, rfl⟩

/-- C2: when the hex digest of the raw tarball bytes differs from the declared
checksum, `getPackageContents` fails with the checksum error before yielding
any entry, and the materializer loop of `downloadNpmPackage` therefore
performs no write at all. -/
theorem claim_c2_integrity_failure_writes_nothing :
    ∀ (packageName version : String) (sha1 : List Nat → List Nat)
      (tarBytes : List Nat) (shasum : String) (entries : List TarEntry)
      (destination : String),
    hashHexOfDigest (sha1 tarBytes) ≠ shasum →
    getPackageContents packageName version sha1 true tarBytes shasum entries =
      .error ("Failed to fetch " ++ packageName ++ "@" ++ version ++ ", checksum failed") ∧
    downloadNpmPackageWrites packageName version sha1 true tarBytes shasum entries destination =
      .error ("Failed to fetch " ++ packageName ++ "@" ++ version ++ ", checksum failed") := by
  intro packageName version sha1 tarBytes shasum entries destination h
  have h1 : getPackageContents packageName version sha1 true tarBytes shasum entries =
      .error ("Failed to fetch " ++ packageName ++ "@" ++ version ++ ", checksum failed") := by
    simp [getPackageContents, h]
  exact ⟨h1, by simp [downloadNpmPackageWrites, h1]⟩

theorem claim_c2_witness :
    hashHexOfDigest ((fun _ => [0]) ([] : List Nat)) ≠ "zz" ∧
    (getPackageContents "p" "1.0.0" (fun _ => [0]) true [] "zz" [⟨"package/a", "file"⟩] =
        .error ("Failed to fetch " ++ "p" ++ "@" ++ "1.0.0" ++ ", checksum failed") ∧
      downloadNpmPackageWrites "p" "1.0.0" (fun _ => [0]) true [] "zz"
          [⟨"package/a", "file"⟩] "/d" =
        .error ("Failed to fetch " ++ "p" ++ "@" ++ "1.0.0" ++ ", checksum failed")) :=
  ⟨by decide,
    claim_c2_integrity_failure_writes_nothing "p" "1.0.0" (fun _ => [0]) [] "zz"
      [⟨"package/a", "file"⟩] "/d" (by decide)⟩

/-- C3 counterexample: the claim states that an entry whose path does not
begin with `package/` aborts iteration with a fatal error.  The current
`getPackageContents` (src/mod.ts line 195) only applies the anchored replace
`replace(/^package\//, "")`: with a correct checksum, the entry `evil.txt`
(no `package/` root) is yielded unchanged and no error is raised. -/
theorem claim_c3_counterexample :
    getPackageContents "p" "1.0.0" (fun _ => []) true [] ""
        [⟨"package/a.txt", "file"⟩, ⟨"evil.txt", "file"⟩] =
      .ok [⟨"a.txt", "file"⟩, ⟨"evil.txt", "file"⟩] := by
  exact rfl

/-- C3 amended: with a correct checksum, iteration yields every archive entry;
an entry whose path begins with `package/` has that one leading root segment
stripped, and an entry whose path does not begin with `package/` is yielded
with its path unchanged — iteration never aborts over the archive layout. -/
theorem claim_c3_amended :
    ∀ (packageName version : String) (sha1 : List Nat → List Nat)
      (tarBytes : List Nat) (entries : List TarEntry),
    getPackageContents packageName version sha1 true tarBytes
        (hashHexOfDigest (sha1 tarBytes)) entries =
      .ok (entries.map fun e =>
        { e with fileName :=
            if startsWithL "package/".toList e.fileName.toList then
              String.mk (e.fileName.toList.drop 8)
            else e.fileName }) := by
  intro packageName version sha1 tarBytes entries
  simp [getPackageContents, stripPackageRoot]

/-- C4: the claim states that `findHighestSemVer` returns `none` exactly when
no candidate satisfies the specifier, in particular that a satisfying
candidate parsing to (0, 0, 0) is returned.  The loop starts from highest =
(0, 0, 0) with a null sentinel and only records strictly greater matches, so
for the specifier `0.0.0` and candidate list `["0.0.0"]` the candidate
satisfies the specifier yet `none` is returned — contradicting the function's
own documentation ("Finds the highest version from versionList that matches
version"). -/
theorem claim_c4_matching_zero_version_lost :
    semVerMatches "0.0.0" "0.0.0" = true ∧
    parsePackageVersion "0.0.0" = (0, 0, 0) ∧
    findHighestSemVer "0.0.0" ["0.0.0"] = none := by
  exact ⟨rfl, rfl, rfl⟩

/-- C5 counterexample: for the caret specifier `^0.0.0` and the candidate set
`["0.0.0"]`, the single candidate has major component 0 = M and satisfies the
specifier, yet `findHighestSemVer` returns `none` instead of a candidate with
major M — refuting the claim for M = 0. -/
theorem claim_c5_counterexample :
    semVerMatches "^0.0.0" "0.0.0" = true ∧
    (parsePackageVersion "0.0.0").1 = (parsePackageVersion "^0.0.0").1 ∧
    findHighestSemVer "^0.0.0" ["0.0.0"] = none := by
  exact ⟨rfl, rfl, rfl⟩

/-- C5 amended: for every caret specifier `^M.N.P` (digit strings `ms`, `ns`,
`ps`) and every candidate list containing at least one candidate whose parsed
major component equals M and whose parsed triple is lexicographically greater
than (0, 0, 0), `findHighestSemVer` returns a candidate with major M whose
(minor, patch) pair is numerically greatest (lexicographically) among all
candidates with major M — minor and patch are never required to equal N or
P.  (The greater-than-(0,0,0) proviso is forced by the loop's (0,0,0)/null
initial accumulator, witnessed by the counterexample.) -/
theorem claim_c5_amended :
    ∀ (ms ns ps : List Char) (candidates : List String),
    ms ≠ [] → ns ≠ [] → ps ≠ [] →
    (∀ c ∈ ms, c.isDigit = true) → (∀ c ∈ ns, c.isDigit = true) →
    (∀ c ∈ ps, c.isDigit = true) →
    (∃ c ∈ candidates, (parsePackageVersion c).1 = ((decVal ms : Nat) : Int) ∧
      tripleLt (0, 0, 0) (parsePackageVersion c) = true) →
    ∃ best ∈ candidates,
      findHighestSemVer (String.mk ('^' :: ms ++ '.' :: ns ++ '.' :: ps)) candidates =
        some best ∧
      (parsePackageVersion best).1 = ((decVal ms : Nat) : Int) ∧
      ∀ c ∈ candidates, (parsePackageVersion c).1 = ((decVal ms : Nat) : Int) →
        tripleLe (parsePackageVersion c) (parsePackageVersion best) := by
  intro ms ns ps candidates hms hns hps hmsd hnsd hpsd hex
  have hmatch : ∀ c : String,
      semVerMatches (String.mk ('^' :: ms ++ '.' :: ns ++ '.' :: ps)) c =
        (((decVal ms : Nat) : Int) == (parsePackageVersion c).1) := by
    intro c
    exact semVerMatchesL_caret hms hns hps hmsd hnsd hpsd c.toList
  have hex2 : ∃ c ∈ candidates,
      semVerMatches (String.mk ('^' :: ms ++ '.' :: ns ++ '.' :: ps)) c = true ∧
      tripleLt (0, 0, 0) (parsePackageVersion c) = true := by
    obtain ⟨c, hc, h1, h2⟩ := hex
    refine ⟨c, hc, ?_, h2⟩
    rw [hmatch c]
    exact beq_iff_eq.mpr h1.symm
  obtain ⟨best, hb1, hbf, hbm, hball⟩ :=
    findHighest_spec (String.mk ('^' :: ms ++ '.' :: ns ++ '.' :: ps)) candidates hex2
  refine ⟨best, hb1, hbf, ?_, ?_⟩
  · rw [hmatch best] at hbm
    exact (beq_iff_eq.mp hbm).symm
  · intro c hc h1
    refine hball c hc ?_
    rw [hmatch c]
    exact beq_iff_eq.mpr h1.symm

theorem claim_c5_amended_witness :
    ((['1'] : List Char) ≠ [] ∧ (['2'] : List Char) ≠ [] ∧ (['3'] : List Char) ≠ [] ∧
      (∀ c ∈ (['1'] : List Char), c.isDigit = true) ∧
      (∀ c ∈ (['2'] : List Char), c.isDigit = true) ∧
      (∀ c ∈ (['3'] : List Char), c.isDigit = true) ∧
      (∃ c ∈ ["1.4.0", "2.0.0", "1.3.9"],
        (parsePackageVersion c).1 = ((decVal ['1'] : Nat) : Int) ∧
        tripleLt (0, 0, 0) (parsePackageVersion c) = true)) ∧
    (∃ best ∈ ["1.4.0", "2.0.0", "1.3.9"],
      findHighestSemVer (String.mk ('^' :: ['1'] ++ '.' :: ['2'] ++ '.' :: ['3']))
        ["1.4.0", "2.0.0", "1.3.9"] = some best ∧
      (parsePackageVersion best).1 = ((decVal ['1'] : Nat) : Int) ∧
      ∀ c ∈ ["1.4.0", "2.0.0", "1.3.9"],
        (parsePackageVersion c).1 = ((decVal ['1'] : Nat) : Int) →
        tripleLe (parsePackageVersion c) (parsePackageVersion best)) :=
  ⟨⟨by decide, by decide, by decide, by decide, by decide, by decide, by decide⟩,
    claim_c5_amended ['1'] ['2'] ['3'] ["1.4.0", "2.0.0", "1.3.9"]
      (by decide) (by decide) (by decide) (by decide) (by decide) (by decide) (by decide)⟩

/-- C6 counterexample: for the specifier `latest`, `fetchNpmPackage` builds
the versioned URL `{packageName}/latest` (not the bare `{packageName}` list
URL), and resolution returns the single direct-lookup record while entirely
ignoring the version listing and the Version Matcher. -/
theorem claim_c6_counterexample :
    registryUrl "pkg" "latest" = "https://registry.npmjs.org/pkg/latest" ∧
    registryUrl "pkg" "latest" ≠ "https://registry.npmjs.org/pkg" ∧
    resolveRegistryJson "pkg" "latest" ⟨"pkg", "9.9.9", ⟨"t", "s"⟩⟩
        [("1.0.0", ⟨"pkg", "1.0.0", ⟨"t2", "s2"⟩⟩)] =
      .ok ⟨"pkg", "9.9.9", ⟨"t", "s"⟩⟩ := by
  exact ⟨rfl, by decide, rfl⟩

/-- C6 amended: for the specifier `latest`, `fetchNpmPackage` resolves by a
single direct lookup at `{packageName}/latest` and uses the returned
single-version record as-is; that resolution consults neither the full
version listing nor the Version Matcher, whatever the listing contains. -/
theorem claim_c6_amended :
    ∀ (packageName : String) (single : NpmPackage)
      (listing : List (String × NpmPackage)),
    registryUrl packageName "latest" =
      "https://registry.npmjs.org/" ++ packageName ++ "/" ++ "latest" ∧
    resolveRegistryJson packageName "latest" single listing = .ok single := by
  intro packageName single listing
  exact ⟨rfl, rfl⟩

/-- C7 counterexample: the declared checksum `AB` agrees with the computed
digest `ab` of digest byte 171 up to letter case, yet `getPackageContents`
raises the checksum error: the comparison at src/mod.ts line 181 is exact
(case-sensitive) string inequality, not a case-insensitive comparison. -/
theorem claim_c7_counterexample :
    toLowerL "AB".toList = toLowerL (hashHexOfDigest ((fun _ => [171]) ([] : List Nat))).toList ∧
    getPackageContents "p" "1.0.0" (fun _ => [171]) true [] "AB" [] =
      .error ("Failed to fetch " ++ "p" ++ "@" ++ "1.0.0" ++ ", checksum failed") := by
  exact ⟨rfl, rfl⟩

/-- C7 amended: the integrity check compares the computed lowercase hex digest
with the declared checksum by exact, case-sensitive string equality:
verification passes exactly when the declared checksum equals the digest's
lowercase hex spelling character for character (so an uppercase spelling of
the correct digest fails). -/
theorem claim_c7_amended :
    ∀ (packageName version : String) (sha1 : List Nat → List Nat)
      (tarBytes : List Nat) (shasum : String) (entries : List TarEntry),
    (∃ es, getPackageContents packageName version sha1 true tarBytes shasum entries =
        .ok es) ↔
      shasum = hashHexOfDigest (sha1 tarBytes) := by
  intro packageName version sha1 tarBytes shasum entries
  by_cases hc : hashHexOfDigest (sha1 tarBytes) = shasum
  · simp [getPackageContents, hc]
  · simp [getPackageContents, hc]
    exact fun h => hc h.symm

/-- C8: `splitNameAndVersion` succeeds exactly on the unique decomposition of
its input at the last `@` (the returned version contains no further `@`),
returning the part before that `@` as the name and the part after it as the
version; it fails exactly when the input is empty, contains no `@`, or the
name or version around the last `@` is empty. -/
theorem claim_c8_split_on_last_at_sign :
    ∀ s : String,
    (∀ n v : String,
      splitNameAndVersion s = .ok (n, v) ↔
        (s = n ++ "@" ++ v ∧ n ≠ "" ∧ v ≠ "" ∧ '@' ∉ v.toList)) ∧
    ((∃ e, splitNameAndVersion s = .error e) ↔
      (s = "" ∨ '@' ∉ s.toList ∨
        ∃ n v : String, s = n ++ "@" ++ v ∧ '@' ∉ v.toList ∧ (n = "" ∨ v = ""))) := by
  intro s
  constructor
  · intro n v
    rw [splitNameAndVersion_ok_iff, splitCore_ok_iff]
    constructor
    · rintro ⟨hdec, hn, hv, hns⟩
      exact ⟨string_at_decomp_iff.mpr hdec, string_ne_empty_iff.mpr hn,
        string_ne_empty_iff.mpr hv, hns⟩
    · rintro ⟨hdec, hn, hv, hns⟩
      exact ⟨string_at_decomp_iff.mp hdec, string_ne_empty_iff.mp hn,
        string_ne_empty_iff.mp hv, hns⟩
  · rw [splitNameAndVersion_error_iff, splitCore_error_iff]
    constructor
    · rintro (h | h | ⟨pre, suf, hdec, hns, hdeg⟩)
      · exact Or.inl (string_empty_iff.mpr h)
      · exact Or.inr (Or.inl h)
      · refine Or.inr (Or.inr ⟨String.mk pre, String.mk suf,
          string_at_decomp_iff.mpr hdec, hns, ?_⟩)
        cases hdeg with
        | inl h2 => exact Or.inl (by rw [h2])
        | inr h2 => exact Or.inr (by rw [h2])
    · rintro (h | h | ⟨n, v, hdec, hns, hdeg⟩)
      · exact Or.inl (string_empty_iff.mp h)
      · exact Or.inr (Or.inl h)
      · refine Or.inr (Or.inr ⟨n.toList, v.toList,
          string_at_decomp_iff.mp hdec, hns, ?_⟩)
        cases hdeg with
        | inl h2 => exact Or.inl (string_empty_iff.mp h2)
        | inr h2 => exact Or.inr (string_empty_iff.mp h2)

/-- C9: every recursive call emitted by the dependency walker targets
`node_modules/{name}` nested under the parent destination (via two
`path.resolve` steps), with `downloadDependencies` set to `true` and
`downloadDevDependencies` at its `false` default — dev dependencies are never
requested transitively, whatever the parent's flags were. -/
theorem claim_c9_recursive_calls :
    ∀ (destination : String) (deps devDeps : List (String × String))
      (downloadDependencies downloadDevDependencies : Bool) (call : DownloadCall),
    call ∈ downloadNpmPackageDependencyPhase destination deps devDeps
        downloadDependencies downloadDevDependencies →
    call.destination =
      pathResolve (pathResolve destination "node_modules") call.packageName ∧
    call.downloadDependencies = true ∧
    call.downloadDevDependencies = false := by
  intro destination deps devDeps dlDeps dlDevDeps call h
  unfold downloadNpmPackageDependencyPhase at h
  split at h
  · rcases List.mem_append.mp h with h1 | h1 <;>
      [skip; skip] <;>
      · split at h1
        · simp only [downloadPackageDependencies, List.mem_map] at h1
          obtain ⟨d, _, rfl⟩ := h1
          exact ⟨rfl, rfl, rfl⟩
        · cases h1
  · cases h

theorem claim_c9_witness :
    (⟨"a", "^1.0.0", pathResolve (pathResolve "/root" "node_modules") "a", true, false⟩ :
        DownloadCall) ∈
      downloadNpmPackageDependencyPhase "/root" [("a", "^1.0.0")] [("d", "2.0.0")] true true ∧
    ((⟨"a", "^1.0.0", pathResolve (pathResolve "/root" "node_modules") "a", true, false⟩ :
        DownloadCall).destination =
      pathResolve (pathResolve "/root" "node_modules")
        (⟨"a", "^1.0.0", pathResolve (pathResolve "/root" "node_modules") "a", true, false⟩ :
          DownloadCall).packageName ∧
    (⟨"a", "^1.0.0", pathResolve (pathResolve "/root" "node_modules") "a", true, false⟩ :
        DownloadCall).downloadDependencies = true ∧
    (⟨"a", "^1.0.0", pathResolve (pathResolve "/root" "node_modules") "a", true, false⟩ :
        DownloadCall).downloadDevDependencies = false) :=
  ⟨by decide,
    claim_c9_recursive_calls "/root" [("a", "^1.0.0")] [("d", "2.0.0")] true true
      ⟨"a", "^1.0.0", pathResolve (pathResolve "/root" "node_modules") "a", true, false⟩
      (by decide)⟩

/-- C10: whenever `fetchNpmPackage` succeeds, the returned `packageName` is
exactly the `packageName` argument it was invoked with (not the registry
record's `name` field), while the returned `version` is the `version` field
of the resolved registry metadata record. -/
theorem claim_c10_package_name_from_input :
    ∀ (packageName version : String) (single : NpmPackage)
      (listing : List (String × NpmPackage)) (r : FetchedNpmPackageData),
    fetchNpmPackage packageName version single listing = .ok r →
    r.packageName = packageName ∧
    r.version = r.registryData.version ∧
    resolveRegistryJson packageName version single listing = .ok r.registryData := by
  intro packageName version single listing r h
  unfold fetchNpmPackage at h
  cases hr : resolveRegistryJson packageName version single listing with
  | error e => rw [hr] at h; cases h
  | ok registryJson =>
    rw [hr] at h
    cases h
    exact ⟨rfl, rfl, rfl⟩

theorem claim_c10_witness :
    fetchNpmPackage "p" "1.2.3" ⟨"other-name", "1.2.3", ⟨"t", "s"⟩⟩ [] =
      .ok ⟨"p", "1.2.3", ⟨"other-name", "1.2.3", ⟨"t", "s"⟩⟩⟩ ∧
    ((⟨"p", "1.2.3", ⟨"other-name", "1.2.3", ⟨"t", "s"⟩⟩⟩ :
        FetchedNpmPackageData).packageName = "p" ∧
    (⟨"p", "1.2.3", ⟨"other-name", "1.2.3", ⟨"t", "s"⟩⟩⟩ :
        FetchedNpmPackageData).version =
      (⟨"p", "1.2.3", ⟨"other-name", "1.2.3", ⟨"t", "s"⟩⟩⟩ :
        FetchedNpmPackageData).registryData.version ∧
    resolveRegistryJson "p" "1.2.3" ⟨"other-name", "1.2.3", ⟨"t", "s"⟩⟩ [] =
      .ok (⟨"p", "1.2.3", ⟨"other-name", "1.2.3", ⟨"t", "s"⟩⟩⟩ :
        FetchedNpmPackageData).registryData) :=
  ⟨by decide,
    claim_c10_package_name_from_input "p" "1.2.3" ⟨"other-name", "1.2.3", ⟨"t", "s"⟩⟩ []
      ⟨"p", "1.2.3", ⟨"other-name", "1.2.3", ⟨"t", "s"⟩⟩⟩ (by decide)⟩

end NpmFetcher
